import Mathlib

/-!
Shallow embedding of `extract_icons.py`, a script that scans a Font Awesome
CSS bundle for icon selector rules, normalizes the matched class names into
base / brand / non-brand sets, and writes them out as text, Markdown, JSON
and CSV.

Modelling conventions:
* a Python `str` is a `List Char`;
* a Python `set` of strings is a duplicate-free `List (List Char)`
  (iteration order is irrelevant: every result proved here is
  order-independent, and concrete computations fix one enumeration);
* the two regular expressions are embedded as explicit scanners that
  reproduce `re.findall` (leftmost, non-overlapping matches; the scanners
  are deterministic because greedy backtracking is forced here: the slug
  class `[a-z0-9-]` excludes `:`, so only the maximal slug can be followed
  by the mandatory colon of `::?before`);
* the filesystem is a lookup function `List Char → Option (List Char)`
  from paths to file contents, and fallible code returns `Except`.
-/

/-- Characters matched by `[a-z]`. -/
def isLowerCh (c : Char) : Bool := 'a' ≤ c && c ≤ 'z'

/-- Characters matched by `[0-9]`. -/
def isDigitCh (c : Char) : Bool := '0' ≤ c && c ≤ '9'

/-- Characters matched by the slug class `[a-z0-9-]`. -/
def isSlugChar (c : Char) : Bool := isLowerCh c || isDigitCh c || c == '-'

/-- Characters matched by the style class `[brsl]`. -/
def isBRSL (c : Char) : Bool := c == 'b' || c == 'r' || c == 's' || c == 'l'

/-- The literal characters of `before`. -/
def beforeL : List Char := ['b', 'e', 'f', 'o', 'r', 'e']

/-- Match `::?before` at the head of the input; on success return the rest of
the input after the match.  A second colon is consumed greedily; since
`before` does not start with `:`, this is exactly the regex backtracking
behaviour. -/
def matchColonBefore : List Char → Option (List Char)
  | ':' :: ':' :: 'b' :: 'e' :: 'f' :: 'o' :: 'r' :: 'e' :: rest => some rest
  | ':' :: 'b' :: 'e' :: 'f' :: 'o' :: 'r' :: 'e' :: rest => some rest
  | _ => none

/-- Match `[brsl]?[a-z]?-` at the head of the input (the part of Pattern B
after the literal `fa`).  Returns the style letters consumed and the rest of
the input after the hyphen.  The decision tree follows the regex engine's
greedy backtracking: try to consume a `[brsl]` letter, then an `[a-z]`
letter, then require `-`, dropping the optional letters on failure. -/
def afterFa : List Char → Option (List Char × List Char)
  | [] => none
  | c1 :: r1 =>
    if isBRSL c1 then
      match r1 with
      | [] => none
      | c2 :: r2 =>
        if isLowerCh c2 then
          match r2 with
          | [] => none
          | c3 :: r3 => if c3 = '-' then some ([c1, c2], r3) else none
        else if c2 = '-' then some ([c1], r2)
        else none
    else if isLowerCh c1 then
      match r1 with
      | [] => none
      | c2 :: r2 => if c2 = '-' then some ([c1], r2) else none
    else if c1 = '-' then some ([], r1)
    else none

/-- One attempted match of Pattern A, `ICON_SELECTOR_RE =
`\.(fa-[a-z0-9-]+)::?before``, at the head of the input.  On success return
the captured group and the rest of the input after the whole match. -/
def matchA (cs : List Char) : Option (List Char × List Char) :=
  match cs with
  | '.' :: 'f' :: 'a' :: '-' :: r =>
    match List.takeWhile isSlugChar r with
    | [] => none
    | s :: st =>
      match matchColonBefore (List.dropWhile isSlugChar r) with
      | some r4 => some ('f' :: 'a' :: '-' :: s :: st, r4)
      | none => none
  | _ => none

/-- One attempted match of Pattern B, `STYLE_SELECTOR_RE =
`\.(fa[brsl]?[a-z]?-[a-z0-9-]+)::?before``, at the head of the input.  On
success return the captured group and the rest of the input after the whole
match. -/
def matchB (cs : List Char) : Option (List Char × List Char) :=
  match cs with
  | '.' :: 'f' :: 'a' :: r =>
    match afterFa r with
    | none => none
    | some (style, r2) =>
      match List.takeWhile isSlugChar r2 with
      | [] => none
      | s :: st =>
        match matchColonBefore (List.dropWhile isSlugChar r2) with
        | some r4 => some ('f' :: 'a' :: style ++ '-' :: s :: st, r4)
        | none => none
  | _ => none

/-- `re.findall`: scan left to right, collecting non-overlapping matches of
the matcher `m`; after a match continue after its end, otherwise advance one
character.  The fuel argument makes the recursion structural; every
successful match consumes at least one character, so fuel equal to the
length of the input (as used in `findAll`) never runs out early. -/
def findAllAux (m : List Char → Option (List Char × List Char)) :
    Nat → List Char → List (List Char)
  | 0, _ => []
  | _ + 1, [] => []
  | fuel + 1, c :: cs =>
    match m (c :: cs) with
    | some (tok, rest) => tok :: findAllAux m fuel rest
    | none => findAllAux m fuel cs

/-- All matches of a pattern in a text, in order. -/
def findAll (m : List Char → Option (List Char × List Char))
    (text : List Char) : List (List Char) :=
  findAllAux m text.length text

/-- Python `str.startswith`. -/
def startsWith : List Char → List Char → Bool
  | [], _ => true
  | _ :: _, [] => false
  | p :: ps, c :: cs => p == c && startsWith ps cs

/-- `cls.startswith("fa-")`. -/
def isBaseTok (s : List Char) : Bool := startsWith ['f', 'a', '-'] s

/-- `cls.startswith("fab-")`. -/
def isFabTok (s : List Char) : Bool := startsWith ['f', 'a', 'b', '-'] s

/-- `cls.startswith(("fas-", "far-", "fal-"))`. -/
def isSolidTok (s : List Char) : Bool :=
  startsWith ['f', 'a', 's', '-'] s || startsWith ['f', 'a', 'r', '-'] s ||
    startsWith ['f', 'a', 'l', '-'] s

/-- Python `cls.replace("fab-", "fa-")`: replace every non-overlapping
occurrence of `fab-`, scanning left to right. -/
def replaceFab : List Char → List Char
  | 'f' :: 'a' :: 'b' :: '-' :: rest => 'f' :: 'a' :: '-' :: replaceFab rest
  | c :: rest => c :: replaceFab rest
  | [] => []

/-- Python `cls.split("-", 1)[1]`: everything after the first `-`. -/
def splitDashTail (s : List Char) : List Char :=
  (List.dropWhile (fun c => !(c == '-')) s).tail

/-- `f"fa-{cls.split('-', 1)[1]}"`. -/
def solidOf (s : List Char) : List Char := 'f' :: 'a' :: '-' :: splitDashTail s

/-- `extract_icon_classes`: the union of the matches of both patterns, as a
set (modelled as a duplicate-free list). -/
def extract_icon_classes (css_text : List Char) : List (List Char) :=
  (findAll matchA css_text ++ findAll matchB css_text).dedup

/-- The body of the `for cls in raw` loop of `normalize_icons`, acting on the
pair of accumulated sets `(base_icons, brand_icons)`. -/
def normStep (st : List (List Char) × List (List Char)) (cls : List Char) :
    List (List Char) × List (List Char) :=
  if isBaseTok cls then (st.1.insert cls, st.2)
  else if isFabTok cls then (st.1, st.2.insert (replaceFab cls))
  else if isSolidTok cls then (st.1.insert (solidOf cls), st.2)
  else st

/-- The accumulated `(base_icons, brand_icons)` sets after the loop of
`normalize_icons`. -/
def normSets (raw : List (List Char)) : List (List Char) × List (List Char) :=
  raw.foldl normStep ([], [])

/-- Insert a string into a list so that a lexicographically sorted list stays
sorted (the ordering is Mathlib's lexicographic order on `List Char`, which
is Python's string `<`). -/
def insortStr (x : List Char) : List (List Char) → List (List Char)
  | [] => [x]
  | y :: ys => if x < y then x :: y :: ys else y :: insortStr x ys

/-- Python `sorted`: lexicographically ascending insertion sort. -/
def pysorted (l : List (List Char)) : List (List Char) :=
  l.foldr insortStr []

/-- Python set difference `s1 - s2` on the list model. -/
def setDiff (l1 l2 : List (List Char)) : List (List Char) :=
  l1.filter fun s => decide (s ∉ l2)

/-- `normalize_icons`: run the classification loop, take
`full_base = base_icons | brand_icons`, and return
`(sorted(full_base), sorted(brand_icons), sorted(full_base - brand_icons))`. -/
def normalize_icons (raw : List (List Char)) :
    List (List Char) × List (List Char) × List (List Char) :=
  let st := normSets raw
  let full_base := st.1.union st.2
  (pysorted full_base, pysorted st.2, pysorted (setDiff full_base st.2))

/-- `write_list`: the file content `"\n".flatten(items) + "\n"`.  `joinSep`
below is Python's `str.flatten`. -/
def joinSep (sep : List Char) : List (List Char) → List Char
  | [] => []
  | [x] => x
  | x :: xs => x ++ sep ++ joinSep sep xs

/-- The content written by `write_list`. -/
def write_list (items : List (List Char)) : List Char :=
  joinSep ['\n'] items ++ ['\n']

/-- The JSON object assembled by `write_json` (the `data` dict; serialization
to text adds no information). -/
structure JsonData where
  count_total : Nat
  count_brands : Nat
  count_non_brands : Nat
  icons : List (List Char)
  brands : List (List Char)
  non_brands : List (List Char)
deriving DecidableEq

/-- `write_json`: build the emitted object from the three lists. -/
def write_json (all_icons brands solids : List (List Char)) : JsonData :=
  { count_total := all_icons.length
    count_brands := brands.length
    count_non_brands := solids.length
    icons := all_icons
    brands := brands
    non_brands := solids }

/-- `load_css`: raise `FileNotFoundError` when the path does not exist, else
return the file text.  The filesystem is a lookup function from paths to
contents. -/
def load_css (fs : List Char → Option (List Char)) (css_path : List Char) :
    Except (List Char) (List Char) :=
  match fs css_path with
  | none => Except.error ("CSS file not found: ".toList ++ css_path)
  | some text => Except.ok text

/-- `main`: load the CSS, extract and normalize, then write the three
mandatory lists and the optional Markdown/JSON/CSV files.  The result is the
list of paths written (empty on no write); an uncaught exception is
`Except.error`, raised before any file is written. -/
def main_run (fs : List Char → Option (List Char))
    (css out brands_out solids_out : List Char)
    (markdown json csv : Option (List Char)) :
    Except (List Char) (List (List Char)) :=
  match load_css fs css with
  | Except.error e => Except.error e
  | Except.ok text =>
    let raw := extract_icon_classes text
    let _icons := normalize_icons raw
    Except.ok ([out, brands_out, solids_out] ++
      markdown.toList ++ json.toList ++ csv.toList)

/-- The letters the optional part `[brsl]?[a-z]?` of Pattern B can consume:
nothing, one lowercase letter, or a `[brsl]` letter followed by any lowercase
letter.  (A lone `[brsl]` letter is also a lowercase letter, so the
one-letter case covers it.) -/
def styleOK (style : List Char) : Prop :=
  style = [] ∨ (∃ c, style = [c] ∧ isLowerCh c = true) ∨
    ∃ c d, style = [c, d] ∧ isBRSL c = true ∧ isLowerCh d = true

/-- The shape of every token captured by Pattern B: `fa`, an optional style
part, a hyphen, and a nonempty slug of `[a-z0-9-]` characters. -/
def tokenShapeB (tok : List Char) : Prop :=
  ∃ style slug, styleOK style ∧ slug ≠ [] ∧ (∀ c ∈ slug, isSlugChar c = true) ∧
    tok = 'f' :: 'a' :: style ++ '-' :: slug

/-- The token occurs in the text preceded by `.` and immediately followed by
`:before` or `::before`. -/
def followedByBefore (text tok : List Char) : Prop :=
  ∃ pre colons post, (colons = [':'] ∨ colons = [':', ':']) ∧
    text = pre ++ '.' :: (tok ++ colons ++ beforeL ++ post)

/-- A token with two (lowercase) letters between `fa` and the first hyphen;
the shape the claim about Pattern B rules out. -/
def twoLettersBeforeDash (tok : List Char) : Bool :=
  match tok with
  | 'f' :: 'a' :: c :: d :: '-' :: _ => isLowerCh c && isLowerCh d
  | _ => false

/-- CSS text containing exactly the selectors `.fa-yin-yang::before` and
`.fab-github:before`. -/
def cssYinGithub : List Char := ".fa-yin-yang::before{x}.fab-github:before{x}".toList

/-- CSS text containing exactly the selector `.fas-user:before`. -/
def cssFasUser : List Char := ".fas-user:before{x}".toList

/-- CSS text containing exactly the selector `.fabx-github:before`, whose
token has two letters between `fa` and the first hyphen. -/
def cssFabx : List Char := ".fabx-github:before{x}".toList

/-! ### Supporting lemmas: `startsWith` and token shapes -/

theorem startsWith_iff (p : List Char) : ∀ s, startsWith p s = true ↔ ∃ r, s = p ++ r := by
  induction p with
  | nil => intro s; simp [startsWith]
  | cons a ps ih =>
    intro s
    cases s with
    | nil => simp [startsWith]
    | cons c cs =>
      simp only [startsWith, Bool.and_eq_true, beq_iff_eq, List.cons_append,
        List.cons.injEq, ih cs]
      constructor
      · rintro ⟨rfl, r, rfl⟩; exact ⟨r, rfl, rfl⟩
      · rintro ⟨r, rfl, rfl⟩; exact ⟨rfl, r, rfl⟩

theorem isFabTok_shape {t : List Char} (h : isFabTok t = true) :
    ∃ r, t = 'f' :: 'a' :: 'b' :: '-' :: r := by
  simpa using (startsWith_iff ['f', 'a', 'b', '-'] t).mp h

theorem isSolidTok_shape {t : List Char} (h : isSolidTok t = true) :
    ∃ r, t = 'f' :: 'a' :: 's' :: '-' :: r ∨ t = 'f' :: 'a' :: 'r' :: '-' :: r ∨
      t = 'f' :: 'a' :: 'l' :: '-' :: r := by
  simp only [isSolidTok, Bool.or_eq_true] at h
  rcases h with (h | h) | h <;>
    · obtain ⟨r, rfl⟩ := (startsWith_iff _ _).mp h
      exact ⟨r, by simp⟩

theorem isSolidTok_not_fab {t : List Char} (h : isSolidTok t = true) :
    isFabTok t = false := by
  obtain ⟨r, h | h | h⟩ := isSolidTok_shape h <;>
    · subst h; simp [isFabTok, startsWith]

theorem replaceFab_of_fab {r : List Char} :
    replaceFab ('f' :: 'a' :: 'b' :: '-' :: r) = 'f' :: 'a' :: '-' :: replaceFab r := by
  simp [replaceFab]

theorem isBaseTok_replaceFab {t : List Char} (h : isFabTok t = true) :
    isBaseTok (replaceFab t) = true := by
  obtain ⟨r, rfl⟩ := isFabTok_shape h
  simp [replaceFab_of_fab, isBaseTok, startsWith]

theorem isBaseTok_solidOf (s : List Char) : isBaseTok (solidOf s) = true := by
  simp [solidOf, isBaseTok, startsWith]

/-! ### Supporting lemmas: insertion sort -/

theorem insortStr_perm (x : List Char) (l : List (List Char)) :
    (insortStr x l).Perm (x :: l) := by
  induction l with
  | nil => exact List.Perm.refl _
  | cons y ys ih =>
    simp only [insortStr]
    split
    · exact List.Perm.refl _
    · exact (ih.cons y).trans (List.Perm.swap x y ys)

theorem mem_insortStr {a x : List Char} {l : List (List Char)} :
    a ∈ insortStr x l ↔ a = x ∨ a ∈ l := by
  rw [(insortStr_perm x l).mem_iff, List.mem_cons]

theorem pysorted_perm (l : List (List Char)) : (pysorted l).Perm l := by
  induction l with
  | nil => exact List.Perm.refl _
  | cons c cs ih => exact (insortStr_perm c (pysorted cs)).trans (ih.cons c)

theorem mem_pysorted {a : List Char} {l : List (List Char)} :
    a ∈ pysorted l ↔ a ∈ l :=
  (pysorted_perm l).mem_iff

theorem nodup_pysorted {l : List (List Char)} (h : l.Nodup) : (pysorted l).Nodup :=
  (pysorted_perm l).nodup_iff.mpr h

theorem length_pysorted (l : List (List Char)) : (pysorted l).length = l.length :=
  (pysorted_perm l).length_eq

theorem insortStr_sorted {l : List (List Char)} {x : List Char}
    (hs : l.Sorted (· < ·)) (hx : x ∉ l) : (insortStr x l).Sorted (· < ·) := by
  induction l with
  | nil => simp [insortStr]
  | cons y ys ih =>
    rw [List.sorted_cons] at hs
    simp only [insortStr]
    split
    next hlt =>
      rw [List.sorted_cons]
      refine ⟨fun b hb => ?_, List.sorted_cons.mpr hs⟩
      rcases List.mem_cons.mp hb with rfl | hb
      · exact hlt
      · exact lt_trans hlt (hs.1 b hb)
    next hlt =>
      have hxy : y < x := by
        rcases lt_trichotomy x y with h | h | h
        · exact absurd h hlt
        · exact absurd (h ▸ List.mem_cons_self x ys) (h ▸ hx)
        · exact h
      rw [List.sorted_cons]
      refine ⟨fun b hb => ?_, ih hs.2 (fun hmem => hx (List.mem_cons_of_mem y hmem))⟩
      rcases mem_insortStr.mp hb with rfl | hb
      · exact hxy
      · exact hs.1 b hb

theorem pysorted_sorted {l : List (List Char)} (h : l.Nodup) :
    (pysorted l).Sorted (· < ·) := by
  induction l with
  | nil => simp [pysorted]
  | cons c cs ih =>
    rw [List.nodup_cons] at h
    exact insortStr_sorted (ih h.2) (fun hm => h.1 (mem_pysorted.mp hm))

/-! ### Supporting lemmas: the classification loop -/

theorem insertList_nodup {l : List (List Char)} (h : l.Nodup) (a : List Char) :
    (List.insert a l).Nodup := by
  by_cases hm : a ∈ l
  · rwa [List.insert_of_mem hm]
  · rw [List.insert_of_not_mem hm]
    exact List.nodup_cons.mpr ⟨hm, h⟩

theorem unionList_nodup :
    ∀ (l₁ : List (List Char)) {l₂ : List (List Char)}, l₂.Nodup →
      (l₁.union l₂).Nodup := by
  intro l₁
  induction l₁ with
  | nil => intro l₂ h; exact h
  | cons a l ih => intro l₂ h; exact insertList_nodup (ih h) a

theorem normStep_fst_nodup {st : List (List Char) × List (List Char)}
    (h1 : st.1.Nodup) (c : List Char) : (normStep st c).1.Nodup := by
  unfold normStep
  split_ifs <;> first | exact insertList_nodup h1 _ | exact h1

theorem normStep_snd_nodup {st : List (List Char) × List (List Char)}
    (h2 : st.2.Nodup) (c : List Char) : (normStep st c).2.Nodup := by
  unfold normStep
  split_ifs <;> first | exact insertList_nodup h2 _ | exact h2

theorem foldl_normStep_nodup (raw : List (List Char)) :
    ∀ st : List (List Char) × List (List Char), st.1.Nodup → st.2.Nodup →
      (raw.foldl normStep st).1.Nodup ∧ (raw.foldl normStep st).2.Nodup := by
  induction raw with
  | nil => exact fun st h1 h2 => ⟨h1, h2⟩
  | cons c raw ih =>
    intro st h1 h2
    rw [List.foldl_cons]
    exact ih _ (normStep_fst_nodup h1 c) (normStep_snd_nodup h2 c)

theorem normSets_nodup (raw : List (List Char)) :
    (normSets raw).1.Nodup ∧ (normSets raw).2.Nodup :=
  foldl_normStep_nodup raw ([], []) List.nodup_nil List.nodup_nil

theorem normStep_mono_fst {st : List (List Char) × List (List Char)}
    {s : List Char} (h : s ∈ st.1) (c : List Char) : s ∈ (normStep st c).1 := by
  unfold normStep
  split_ifs <;> simp [List.mem_insert_iff, h]

theorem normStep_mono_snd {st : List (List Char) × List (List Char)}
    {s : List Char} (h : s ∈ st.2) (c : List Char) : s ∈ (normStep st c).2 := by
  unfold normStep
  split_ifs <;> simp [List.mem_insert_iff, h]

theorem foldl_normStep_mono_fst (raw : List (List Char)) :
    ∀ {st : List (List Char) × List (List Char)} {s : List Char}, s ∈ st.1 →
      s ∈ (raw.foldl normStep st).1 := by
  induction raw with
  | nil => exact fun h => h
  | cons c raw ih =>
    intro st s h
    rw [List.foldl_cons]
    exact ih (normStep_mono_fst h c)

theorem foldl_normStep_mono_snd (raw : List (List Char)) :
    ∀ {st : List (List Char) × List (List Char)} {s : List Char}, s ∈ st.2 →
      s ∈ (raw.foldl normStep st).2 := by
  induction raw with
  | nil => exact fun h => h
  | cons c raw ih =>
    intro st s h
    rw [List.foldl_cons]
    exact ih (normStep_mono_snd h c)

theorem foldl_normStep_fab {t : List Char} (h1 : isBaseTok t = false)
    (h2 : isFabTok t = true) :
    ∀ (raw : List (List Char)) (st : List (List Char) × List (List Char)),
      t ∈ raw → replaceFab t ∈ (raw.foldl normStep st).2 := by
  intro raw
  induction raw with
  | nil => intro st ht; cases ht
  | cons c raw ih =>
    intro st ht
    rw [List.foldl_cons]
    rcases List.mem_cons.mp ht with rfl | hmem
    · refine foldl_normStep_mono_snd raw ?_
      simp [normStep, h1, h2, List.mem_insert_iff]
    · exact ih _ hmem

theorem foldl_normStep_solid {t : List Char} (h1 : isBaseTok t = false)
    (h2 : isSolidTok t = true) :
    ∀ (raw : List (List Char)) (st : List (List Char) × List (List Char)),
      t ∈ raw → solidOf t ∈ (raw.foldl normStep st).1 := by
  intro raw
  induction raw with
  | nil => intro st ht; cases ht
  | cons c raw ih =>
    intro st ht
    rw [List.foldl_cons]
    rcases List.mem_cons.mp ht with rfl | hmem
    · refine foldl_normStep_mono_fst raw ?_
      simp [normStep, h1, h2, isSolidTok_not_fab h2, List.mem_insert_iff]
    · exact ih _ hmem

theorem foldl_normStep_inv (P : List Char → Prop)
    (hbase : ∀ c, isBaseTok c = true → P c)
    (hfab : ∀ c, isFabTok c = true → P (replaceFab c))
    (hsolid : ∀ c, P (solidOf c)) (raw : List (List Char)) :
    ∀ st : List (List Char) × List (List Char),
      (∀ s ∈ st.1, P s) → (∀ s ∈ st.2, P s) →
      (∀ s ∈ (raw.foldl normStep st).1, P s) ∧
        (∀ s ∈ (raw.foldl normStep st).2, P s) := by
  induction raw with
  | nil => exact fun st h1 h2 => ⟨h1, h2⟩
  | cons c raw ih =>
    intro st h1 h2
    rw [List.foldl_cons]
    refine ih _ ?_ ?_
    · intro s hs
      unfold normStep at hs
      split_ifs at hs with hc1 hc2 hc3
      · rcases List.mem_insert_iff.mp hs with rfl | hmem
        · exact hbase s hc1
        · exact h1 s hmem
      · exact h1 s hs
      · rcases List.mem_insert_iff.mp hs with rfl | hmem
        · exact hsolid c
        · exact h1 s hmem
      · exact h1 s hs
    · intro s hs
      unfold normStep at hs
      split_ifs at hs with hc1 hc2
      · exact h2 s hs
      · rcases List.mem_insert_iff.mp hs with rfl | hmem
        · exact hfab c hc2
        · exact h2 s hmem
      · exact h2 s hs
      · exact h2 s hs

theorem normSets_fa (raw : List (List Char)) :
    (∀ s ∈ (normSets raw).1, isBaseTok s = true) ∧
      (∀ s ∈ (normSets raw).2, isBaseTok s = true) :=
  foldl_normStep_inv (fun s => isBaseTok s = true) (fun _ h => h)
    (fun _ h => isBaseTok_replaceFab h) (fun c => isBaseTok_solidOf c) raw ([], [])
    (by simp) (by simp)

/-! ### Supporting lemmas: the Pattern B scanner -/

theorem isBRSL_isLower {c : Char} (h : isBRSL c = true) : isLowerCh c = true := by
  simp only [isBRSL, Bool.or_eq_true, beq_iff_eq] at h
  rcases h with ((rfl | rfl) | rfl) | rfl <;> decide

theorem matchColonBefore_spec {l rest : List Char} (h : matchColonBefore l = some rest) :
    ∃ colons, (colons = [':'] ∨ colons = [':', ':']) ∧ l = colons ++ beforeL ++ rest := by
  unfold matchColonBefore at h
  split at h
  · injection h with h; subst h; exact ⟨[':', ':'], Or.inr rfl, rfl⟩
  · injection h with h; subst h; exact ⟨[':'], Or.inl rfl, rfl⟩
  · exact absurd h (by simp)

theorem afterFa_spec {r style t : List Char} (h : afterFa r = some (style, t)) :
    r = style ++ '-' :: t ∧ styleOK style := by
  cases r with
  | nil => exact absurd h (by simp [afterFa])
  | cons c1 r1 =>
    simp only [afterFa] at h
    by_cases hb : isBRSL c1 = true
    · rw [if_pos hb] at h
      cases r1 with
      | nil => exact absurd h (by simp)
      | cons c2 r2 =>
        simp only [] at h
        by_cases hl : isLowerCh c2 = true
        · rw [if_pos hl] at h
          cases r2 with
          | nil => exact absurd h (by simp)
          | cons c3 r3 =>
            simp only [] at h
            by_cases h3 : c3 = '-'
            · rw [if_pos h3] at h
              simp only [Option.some.injEq, Prod.mk.injEq] at h
              obtain ⟨rfl, rfl⟩ := h
              subst h3
              exact ⟨rfl, Or.inr (Or.inr ⟨c1, c2, rfl, hb, hl⟩)⟩
            · rw [if_neg h3] at h
              exact absurd h (by simp)
        · rw [if_neg hl] at h
          by_cases h2 : c2 = '-'
          · rw [if_pos h2] at h
            simp only [Option.some.injEq, Prod.mk.injEq] at h
            obtain ⟨rfl, rfl⟩ := h
            subst h2
            exact ⟨rfl, Or.inr (Or.inl ⟨c1, rfl, isBRSL_isLower hb⟩)⟩
          · rw [if_neg h2] at h
            exact absurd h (by simp)
    · rw [if_neg hb] at h
      by_cases hl : isLowerCh c1 = true
      · rw [if_pos hl] at h
        cases r1 with
        | nil => exact absurd h (by simp)
        | cons c2 r2 =>
          simp only [] at h
          by_cases h2 : c2 = '-'
          · rw [if_pos h2] at h
            simp only [Option.some.injEq, Prod.mk.injEq] at h
            obtain ⟨rfl, rfl⟩ := h
            subst h2
            exact ⟨rfl, Or.inr (Or.inl ⟨c1, rfl, hl⟩)⟩
          · rw [if_neg h2] at h
            exact absurd h (by simp)
      · rw [if_neg hl] at h
        by_cases h1 : c1 = '-'
        · rw [if_pos h1] at h
          simp only [Option.some.injEq, Prod.mk.injEq] at h
          obtain ⟨rfl, rfl⟩ := h
          subst h1
          exact ⟨rfl, Or.inl rfl⟩
        · rw [if_neg h1] at h
          exact absurd h (by simp)

theorem matchB_spec {cs tok rest : List Char} (h : matchB cs = some (tok, rest)) :
    tokenShapeB tok ∧ ∃ colons, (colons = [':'] ∨ colons = [':', ':']) ∧
      cs = '.' :: (tok ++ colons ++ beforeL ++ rest) := by
  unfold matchB at h
  split at h
  case _ r =>
    cases hA : afterFa r with
    | none => simp [hA] at h
    | some p =>
      obtain ⟨style, r2⟩ := p
      simp only [hA] at h
      obtain ⟨hr, hstyle⟩ := afterFa_spec hA
      cases hT : List.takeWhile isSlugChar r2 with
      | nil => simp [hT] at h
      | cons s st =>
        simp only [hT] at h
        cases hC : matchColonBefore (List.dropWhile isSlugChar r2) with
        | none => simp [hC] at h
        | some r4 =>
          simp only [hC] at h
          simp only [Option.some.injEq, Prod.mk.injEq] at h
          obtain ⟨rfl, rfl⟩ := h
          obtain ⟨colons, hcol, hdrop⟩ := matchColonBefore_spec hC
          have hsplit : (s :: st) ++ List.dropWhile isSlugChar r2 = r2 := by
            rw [← hT]; exact List.takeWhile_append_dropWhile isSlugChar r2
          refine ⟨⟨style, s :: st, hstyle, List.cons_ne_nil s st, ?_, rfl⟩,
            colons, hcol, ?_⟩
          · intro c hc
            exact List.mem_takeWhile_imp (hT ▸ hc)
          · subst hr
            rw [← hsplit, hdrop]
            simp [List.append_assoc]
  case _ =>
    exact absurd h (by simp)

theorem findAllAux_matchB_spec :
    ∀ (fuel : Nat) (cs tok : List Char), tok ∈ findAllAux matchB fuel cs →
      tokenShapeB tok ∧ followedByBefore cs tok := by
  intro fuel
  induction fuel with
  | zero => intro cs tok h; simp [findAllAux] at h
  | succ fuel ih =>
    intro cs tok h
    cases cs with
    | nil => simp [findAllAux] at h
    | cons c cs' =>
      rw [findAllAux] at h
      cases hm : matchB (c :: cs') with
      | some p =>
        obtain ⟨tk, rest⟩ := p
        simp only [hm] at h
        obtain ⟨hshape, colons, hcol, hcs⟩ := matchB_spec hm
        rcases List.mem_cons.mp h with rfl | hmem
        · exact ⟨hshape, [], colons, rest, hcol, by simpa using hcs⟩
        · obtain ⟨hshape', pre, colons', post, hcol', hrest⟩ := ih rest tok hmem
          refine ⟨hshape', '.' :: (tk ++ colons ++ beforeL) ++ pre, colons', post,
            hcol', ?_⟩
          rw [hcs, hrest]
          simp [List.append_assoc]
      | none =>
        simp only [hm] at h
        obtain ⟨hshape, pre, colons, post, hcol, hrest⟩ := ih cs' tok h
        exact ⟨hshape, c :: pre, colons, post, hcol, by rw [hrest]; rfl⟩

/-! ### Further supporting lemmas -/

theorem normalize_icons_eq (raw : List (List Char)) :
    normalize_icons raw =
      (pysorted ((normSets raw).1.union (normSets raw).2),
        pysorted (normSets raw).2,
        pysorted (setDiff ((normSets raw).1.union (normSets raw).2)
          (normSets raw).2)) := rfl

/-! ### The claims -/

/-- C1, counterexample: on the raw token `fab-fab-x` (matched by Pattern B
from `.fab-fab-x:before`), the normalizer adds `fa-fa-x` — the result of
replacing every occurrence of `fab-` — to both sets, and the string
`fa-` ++ the token without its first four characters, namely `fa-fab-x`, is
added to neither set. -/
theorem C1_counterexample :
    isBaseTok ("fab-fab-x".toList) = false ∧ isFabTok ("fab-fab-x".toList) = true ∧
    "fab-fab-x".toList ∈ findAll matchB (".fab-fab-x:before{x}".toList) ∧
    normalize_icons ["fab-fab-x".toList] =
      (["fa-fa-x".toList], ["fa-fa-x".toList], []) ∧
    'f' :: 'a' :: '-' :: List.drop 4 ("fab-fab-x".toList) = "fa-fab-x".toList ∧
    "fa-fab-x".toList ∉ (normalize_icons ["fab-fab-x".toList]).1 ∧
    "fa-fab-x".toList ∉ (normalize_icons ["fab-fab-x".toList]).2.1 := by decide

/-- C1 (amended): for every raw token that does not start with `fa-` but
starts with `fab-`, the normalizer adds exactly the string obtained by
replacing every occurrence of `fab-` in the token with `fa-` (Python
`str.replace`; this equals `fa-` plus the remainder after the prefix
whenever `fab-` does not reoccur in the remainder) to both the brand set and
the base set; no other string is added for that token. -/
theorem C1_theorem (t : List Char) (h1 : isBaseTok t = false)
    (h2 : isFabTok t = true) :
    (∀ raw, t ∈ raw → replaceFab t ∈ (normalize_icons raw).1 ∧
      replaceFab t ∈ (normalize_icons raw).2.1) ∧
    normalize_icons [t] = ([replaceFab t], [replaceFab t], []) := by
  constructor
  · intro raw ht
    have hb : replaceFab t ∈ (normSets raw).2 :=
      foldl_normStep_fab h1 h2 raw ([], []) ht
    rw [normalize_icons_eq]
    exact ⟨mem_pysorted.mpr (List.mem_union_iff.mpr (Or.inr hb)),
      mem_pysorted.mpr hb⟩
  · have hsets : normSets [t] = ([], [replaceFab t]) := by
      simp [normSets, normStep, h1, h2]
    have hu : List.union ([] : List (List Char)) [replaceFab t] = [replaceFab t] := rfl
    have hd : setDiff [replaceFab t] [replaceFab t] = [] := by
      simp [setDiff]
    rw [normalize_icons_eq, hsets]
    dsimp only
    rw [hu, hd]
    rfl

/-- C1, witness at the token `fab-github`. -/
theorem C1_witness :
    normalize_icons ["fab-github".toList] =
      (["fa-github".toList], ["fa-github".toList], []) :=
  ((C1_theorem ("fab-github".toList) (by decide) (by decide)).2).trans (by decide)

/-- C2, counterexample: the token `fabx-github` is captured by Pattern B from
the CSS text `.fabx-github:before{x}` and has two letters between `fa` and
the first hyphen, contradicting the claimed shape. -/
theorem C2_counterexample :
    "fabx-github".toList ∈ findAll matchB cssFabx ∧
    twoLettersBeforeDash ("fabx-github".toList) = true := by decide

/-- C2 (amended): every token captured by Pattern B has the shape `fa`,
followed by an optional `[brsl]` letter and then an optional lowercase
letter (so up to two letters, the first restricted to `b`, `r`, `s`, `l`
when two are present), then a hyphen, then a nonempty slug of lowercase
letters, digits, or hyphens; and the token occurs in the text immediately
followed by `:before` or `::before`. -/
theorem C2_theorem (text tok : List Char) (h : tok ∈ findAll matchB text) :
    tokenShapeB tok ∧ followedByBefore text tok :=
  findAllAux_matchB_spec text.length text tok h

/-- C2, witness at the text `.fab-github:before{x}`. -/
theorem C2_witness :
    tokenShapeB ("fab-github".toList) ∧
      followedByBefore (".fab-github:before{x}".toList) ("fab-github".toList) :=
  C2_theorem (".fab-github:before{x}".toList) ("fab-github".toList) (by decide)

/-- C3 (confirmed): for every input raw set, the three sequences returned by
the normalizer satisfy: each is strictly sorted lexicographically ascending
with no duplicates, the brand set is a subset of the base set, and the
non-brand set equals the base set minus the brand set. -/
theorem C3_theorem (raw : List (List Char)) :
    (normalize_icons raw).1.Sorted (· < ·) ∧ (normalize_icons raw).1.Nodup ∧
    (normalize_icons raw).2.1.Sorted (· < ·) ∧ (normalize_icons raw).2.1.Nodup ∧
    (normalize_icons raw).2.2.Sorted (· < ·) ∧ (normalize_icons raw).2.2.Nodup ∧
    (∀ s, s ∈ (normalize_icons raw).2.1 → s ∈ (normalize_icons raw).1) ∧
    (∀ s, s ∈ (normalize_icons raw).2.2 ↔
      s ∈ (normalize_icons raw).1 ∧ s ∉ (normalize_icons raw).2.1) := by
  obtain ⟨hn1, hn2⟩ := normSets_nodup raw
  have hU : ((normSets raw).1.union (normSets raw).2).Nodup := unionList_nodup _ hn2
  have hD : (setDiff ((normSets raw).1.union (normSets raw).2)
      (normSets raw).2).Nodup := by
    simp only [setDiff]
    exact hU.filter _
  rw [normalize_icons_eq]
  dsimp only
  refine ⟨pysorted_sorted hU, nodup_pysorted hU, pysorted_sorted hn2,
    nodup_pysorted hn2, pysorted_sorted hD, nodup_pysorted hD, ?_, ?_⟩
  · intro s hs
    exact mem_pysorted.mpr (List.mem_union_iff.mpr (Or.inr (mem_pysorted.mp hs)))
  · intro s
    rw [mem_pysorted, mem_pysorted, mem_pysorted]
    simp [setDiff, List.mem_filter]

/-- C3, witness: the subset component applied at the raw set
`{fab-github}`. -/
theorem C3_witness :
    "fa-github".toList ∈ (normalize_icons ["fab-github".toList]).1 :=
  ( C3_theorem ["fab-github".toList]).2.2.2.2.2.2.1 ("fa-github".toList) (by decide)

/-- C4 (confirmed): in the object emitted by the JSON writer on the
normalizer's triple, `count_total` equals the length of the `icons` array,
`count_brands` the length of `brands`, `count_non_brands` the length of
`non_brands`, and `count_brands + count_non_brands = count_total`. -/
theorem C4_theorem (raw : List (List Char)) :
    (write_json (normalize_icons raw).1 (normalize_icons raw).2.1
        (normalize_icons raw).2.2).count_total =
      (write_json (normalize_icons raw).1 (normalize_icons raw).2.1
        (normalize_icons raw).2.2).icons.length ∧
    (write_json (normalize_icons raw).1 (normalize_icons raw).2.1
        (normalize_icons raw).2.2).count_brands =
      (write_json (normalize_icons raw).1 (normalize_icons raw).2.1
        (normalize_icons raw).2.2).brands.length ∧
    (write_json (normalize_icons raw).1 (normalize_icons raw).2.1
        (normalize_icons raw).2.2).count_non_brands =
      (write_json (normalize_icons raw).1 (normalize_icons raw).2.1
        (normalize_icons raw).2.2).non_brands.length ∧
    (write_json (normalize_icons raw).1 (normalize_icons raw).2.1
        (normalize_icons raw).2.2).count_brands +
      (write_json (normalize_icons raw).1 (normalize_icons raw).2.1
        (normalize_icons raw).2.2).count_non_brands =
      (write_json (normalize_icons raw).1 (normalize_icons raw).2.1
        (normalize_icons raw).2.2).count_total := by
  refine ⟨rfl, rfl, rfl, ?_⟩
  simp only [write_json]
  rw [normalize_icons_eq]
  dsimp only
  rw [length_pysorted, length_pysorted, length_pysorted]
  obtain ⟨hn1, hn2⟩ := normSets_nodup raw
  have hU := unionList_nodup (normSets raw).1 hn2
  have hDnodup : (setDiff ((normSets raw).1.union (normSets raw).2)
      (normSets raw).2).Nodup := by
    simp only [setDiff]
    exact hU.filter _
  have hBF : (normSets raw).2.toFinset ⊆
      ((normSets raw).1.union (normSets raw).2).toFinset := by
    intro x hx
    rw [List.mem_toFinset] at hx ⊢
    exact List.mem_union_iff.mpr (Or.inr hx)
  have hDset : (setDiff ((normSets raw).1.union (normSets raw).2)
        (normSets raw).2).toFinset =
      ((normSets raw).1.union (normSets raw).2).toFinset \
        (normSets raw).2.toFinset := by
    ext x
    simp [setDiff, List.mem_filter, List.mem_toFinset, Finset.mem_sdiff]
  have hcard := Finset.card_sdiff_add_card_eq_card hBF
  rw [← hDset, List.toFinset_card_of_nodup hDnodup,
    List.toFinset_card_of_nodup hn2, List.toFinset_card_of_nodup hU] at hcard
  omega

/-- C5 (confirmed): when the input CSS path does not exist in the filesystem,
`load_css` signals the file-not-found condition, and the run halts with that
error before any extraction or writing: no output file list is ever
produced. -/
theorem C5_theorem (fs : List Char → Option (List Char))
    (css out brands_out solids_out : List Char)
    (markdown json csv : Option (List Char)) (h : fs css = none) :
    load_css fs css = Except.error ("CSS file not found: ".toList ++ css) ∧
    main_run fs css out brands_out solids_out markdown json csv =
      Except.error ("CSS file not found: ".toList ++ css) ∧
    ∀ written, main_run fs css out brands_out solids_out markdown json csv ≠
      Except.ok written := by
  refine ⟨?_, ?_, ?_⟩ <;> simp [load_css, main_run, h]

/-- C5, witness at the empty filesystem and the default paths. -/
theorem C5_witness :
    main_run (fun _ => none) ("assets/css/fontawesome-all.min.css".toList)
        ("icon_list.txt".toList) ("brands_list.txt".toList) ("solids_list.txt".toList)
        none none none =
      Except.error
        ("CSS file not found: ".toList ++
          "assets/css/fontawesome-all.min.css".toList) :=
  (C5_theorem (fun _ => none) ("assets/css/fontawesome-all.min.css".toList)
    ("icon_list.txt".toList) ("brands_list.txt".toList) ("solids_list.txt".toList)
    none none none rfl).2.1

/-- C6 (confirmed): on CSS text containing exactly the selectors
`.fa-yin-yang::before` and `.fab-github:before`, extraction followed by
normalization yields base `{fa-github, fa-yin-yang}`, brand `{fa-github}`,
and non-brand `{fa-yin-yang}`. -/
theorem C6_theorem :
    normalize_icons (extract_icon_classes cssYinGithub) =
      (["fa-github".toList, "fa-yin-yang".toList], ["fa-github".toList],
        ["fa-yin-yang".toList]) := by decide

/-- C7 (confirmed): every raw token starting with `fas-`, `far-` or `fal-`
(and not with `fa-`) contributes `fa-` ++ the part after the first hyphen
(which is `solidOf`, literally `f"fa-{cls.split('-', 1)[1]}"`) to the base
set only, never to the brand set; and CSS containing `.fas-user:before{x}`
yields a base set including `fa-user` and a brand set excluding it. -/
theorem C7_theorem :
    (∀ t : List Char, isSolidTok t = true → isBaseTok t = false →
      (∀ raw, t ∈ raw → solidOf t ∈ (normalize_icons raw).1) ∧
      normalize_icons [t] = ([solidOf t], [], [solidOf t])) ∧
    "fa-user".toList ∈ (normalize_icons (extract_icon_classes cssFasUser)).1 ∧
    "fa-user".toList ∉ (normalize_icons (extract_icon_classes cssFasUser)).2.1 := by
  refine ⟨?_, by decide, by decide⟩
  intro t h2 h1
  constructor
  · intro raw ht
    have hb : solidOf t ∈ (normSets raw).1 :=
      foldl_normStep_solid h1 h2 raw ([], []) ht
    rw [normalize_icons_eq]
    exact mem_pysorted.mpr (List.mem_union_iff.mpr (Or.inl hb))
  · have hsets : normSets [t] = ([solidOf t], []) := by
      simp [normSets, normStep, h1, isSolidTok_not_fab h2, h2]
    have hu : List.union [solidOf t] ([] : List (List Char)) = [solidOf t] := rfl
    have hd : setDiff [solidOf t] [] = [solidOf t] := by simp [setDiff]
    rw [normalize_icons_eq, hsets]
    dsimp only
    rw [hu, hd]
    rfl

/-- C7, witness at the token `fas-user`. -/
theorem C7_witness :
    normalize_icons ["fas-user".toList] =
      (["fa-user".toList], [], ["fa-user".toList]) :=
  ((C7_theorem.1 ("fas-user".toList) (by decide) (by decide)).2).trans (by decide)

/-- C8 (confirmed): a raw token that starts with none of `fa-`, `fab-`,
`fas-`, `far-`, `fal-` is silently dropped: removing it from the raw set
does not change any of the three output sequences (and the normalizer is a
total function, so no error is raised). -/
theorem C8_theorem (t : List Char) (raw : List (List Char))
    (h1 : isBaseTok t = false) (h2 : isFabTok t = false)
    (h3 : isSolidTok t = false) :
    normalize_icons (t :: raw) = normalize_icons raw := by
  have hstep : normStep ([], []) t = ([], []) := by simp [normStep, h1, h2, h3]
  simp [normalize_icons_eq, normSets, List.foldl_cons, hstep]

/-- C8, witness: `faq-x` (which Pattern B captures from `.faq-x:before`) is
dropped. -/
theorem C8_witness :
    normalize_icons ["faq-x".toList, "fa-code".toList] =
      normalize_icons ["fa-code".toList] :=
  C8_theorem ("faq-x".toList) ["fa-code".toList] (by decide) (by decide) (by decide)

/-- C9, counterexample: on the empty list the plain-text writer emits a
single newline, not the empty concatenation. -/
theorem C9_counterexample :
    write_list [] = ['\n'] ∧
    write_list [] ≠ (([] : List (List Char)).map (fun s => s ++ ['\n'])).flatten := by
  decide

/-- C9 (amended): for every nonempty list of names, the plain-text writer
produces the concatenation, over the list in order, of each name followed by
a single newline; the empty list yields a file holding a single newline
character (from `"\n".flatten([]) + "\n"`). -/
theorem C9_theorem (items : List (List Char)) :
    (items ≠ [] → write_list items = (items.map (fun s => s ++ ['\n'])).flatten) ∧
    write_list [] = ['\n'] := by
  refine ⟨?_, rfl⟩
  induction items with
  | nil => intro h; exact absurd rfl h
  | cons x xs ih =>
    intro _
    cases xs with
    | nil => simp [write_list, joinSep]
    | cons y ys =>
      have h2 := ih (List.cons_ne_nil y ys)
      show joinSep ['\n'] (x :: y :: ys) ++ ['\n'] =
        ((x :: y :: ys).map (fun s => s ++ ['\n'])).flatten
      calc joinSep ['\n'] (x :: y :: ys) ++ ['\n']
          = ((x ++ ['\n']) ++ joinSep ['\n'] (y :: ys)) ++ ['\n'] := rfl
        _ = (x ++ ['\n']) ++ write_list (y :: ys) := by
            show _ = (x ++ ['\n']) ++ (joinSep ['\n'] (y :: ys) ++ ['\n'])
            rw [List.append_assoc]
        _ = (x ++ ['\n']) ++ ((y :: ys).map (fun s => s ++ ['\n'])).flatten := by
            rw [h2]
        _ = ((x :: y :: ys).map (fun s => s ++ ['\n'])).flatten := rfl

/-- C9, witness at a two-element list. -/
theorem C9_witness :
    write_list ["ab".toList, "cd".toList] =
      ((["ab".toList, "cd".toList]).map (fun s => s ++ ['\n'])).flatten :=
  ( C9_theorem ["ab".toList, "cd".toList]).1 (by decide)

/-- C10 (confirmed): every string in each of the three sequences returned by
the normalizer starts with the prefix `fa-`. -/
theorem C10_theorem (raw : List (List Char)) (s : List Char)
    (hs : s ∈ (normalize_icons raw).1 ∨ s ∈ (normalize_icons raw).2.1 ∨
      s ∈ (normalize_icons raw).2.2) :
    startsWith ['f', 'a', '-'] s = true := by
  have hfa := normSets_fa raw
  have hful : ∀ x ∈ (normSets raw).1.union (normSets raw).2,
      isBaseTok x = true := by
    intro x hx
    rcases List.mem_union_iff.mp hx with h | h
    · exact hfa.1 x h
    · exact hfa.2 x h
  rw [normalize_icons_eq] at hs
  dsimp only at hs
  rcases hs with h | h | h
  · exact hful s (mem_pysorted.mp h)
  · exact hfa.2 s (mem_pysorted.mp h)
  · have hmem := mem_pysorted.mp h
    simp only [setDiff, List.mem_filter] at hmem
    exact hful s hmem.1

/-- C10, witness at the raw set `{fab-github}`. -/
theorem C10_witness : startsWith ['f', 'a', '-'] "fa-github".toList = true :=
  C10_theorem ["fab-github".toList] "fa-github".toList (Or.inl (by decide))
